import Mathlib

/-!
Verification of the FreeRTOS performance-benchmark harness
(`queue_contention.c`, `crit_speed.c`, `queue_speed.c` plus
`test_config.h`) against its natural-language specification.

The C sources are shallowly embedded: `UBaseType_t` arithmetic is `Nat`
arithmetic modulo `2 ^ 32` (the targets are 32-bit), the hardware cycle
counter is an oracle `Clock : Nat -> Nat` giving the value returned by the
k-th call of `portTEST_GET_TIME()`, and the fatal `TEST_ASSERT_*` macros
are `Except.error` carrying exactly the message string passed at the call
site.  Each producer/driver loop of the C code becomes a structurally
recursive Lean function threading the same state the C code mutates.
-/

/-- Compile-time constant from `queue_contention.c` / `crit_speed.c` /
`queue_speed.c`: `#define portTEST_NUM_SAMPLES 128`. -/
def portTEST_NUM_SAMPLES : Nat := 128

/-- Compile-time constant from `queue_contention.c`:
`#define portTEST_NUM_ITEMS 256`. -/
def portTEST_NUM_ITEMS : Nat := 256

/-- Compile-time constant from `test_config.h`:
`#define configNUMBER_OF_CORES 2`. -/
def configNUMBER_OF_CORES : Nat := 2

/-- `UBaseType_t` on the ESP32 targets is a 32-bit unsigned integer; all
benchmark arithmetic happens in it, wrapping modulo `2 ^ 32`. -/
def wordMod : Nat := 2 ^ 32

/-- Unsigned 32-bit addition (`a + b` on `UBaseType_t`). -/
def wordAdd (a b : Nat) : Nat := (a + b) % wordMod

/-- Unsigned 32-bit subtraction (`a - b` on `UBaseType_t`). -/
def wordSub (a b : Nat) : Nat := (a + (wordMod - b % wordMod)) % wordMod

/-- A clock oracle: `clock k` is the raw hardware cycle count returned by
the k-th executed `portTEST_GET_TIME()` call of the context under
consideration. -/
def Clock : Type := Nat → Nat

/-- The value of `( ( UBaseType_t ) esp_cpu_get_cycle_count() )` at the
k-th read: the raw count truncated to the 32-bit word. -/
def read (clock : Clock) (k : Nat) : Nat := clock k % wordMod

/-- Modelled from the spec: the kernel-provided bounded-capacity queue
(`xQueueCreate(n, sizeof(int))`).  The FreeRTOS queue implementation is
not part of the observed sources; the spec describes it as "a
kernel-provided bounded-capacity queue abstraction with non-blocking
enqueue/dequeue and a reset operation restoring it to empty". -/
structure Queue where
  capacity : Nat
  items : List Int
  deriving DecidableEq, Repr

/-- Modelled from the spec: `xQueueCreate(capacity, sizeof(int))` returns
an empty queue with the given bounded capacity. -/
def xQueueCreate (capacity : Nat) : Queue := ⟨capacity, []⟩

/-- Modelled from the spec: non-blocking `xQueueSend(q, &v, 0)`.  Returns
`pdTRUE` and appends the item when there is room, `pdFALSE` ("full")
otherwise. -/
def xQueueSend (q : Queue) (v : Int) : Bool × Queue :=
  if q.items.length < q.capacity then (true, ⟨q.capacity, q.items ++ [v]⟩)
  else (false, q)

/-- Modelled from the spec: non-blocking `xQueueReceive(q, &v, 0)`.
Returns the oldest item (FIFO) when the queue is non-empty, `none`
("empty") otherwise. -/
def xQueueReceive (q : Queue) : Option Int × Queue :=
  match q.items with
  | [] => (none, q)
  | v :: rest => (some v, ⟨q.capacity, rest⟩)

/-- Modelled from the spec: `xQueueReset(q)` restores the queue to the
initial empty state. -/
def xQueueReset (q : Queue) : Queue := ⟨q.capacity, []⟩

/-- Observable events of one producer task (`prvProducerTask`), in program
order. -/
inductive PEvent where
  | notifyTake : PEvent
  | clockRead : Nat → PEvent
  | enqueue : Int → Bool → PEvent
  | accumulate : Nat → PEvent
  | queueReset : PEvent
  | semGive : PEvent
  deriving DecidableEq, Repr

/-- Discriminator for enqueue events. -/
def isEnqueue : PEvent → Bool
  | PEvent.enqueue _ _ => true
  | _ => false

/-- Discriminator for successful enqueue events. -/
def isSuccessfulEnqueue : PEvent → Bool
  | PEvent.enqueue _ ok => ok
  | _ => false

/-- Discriminator for clock-read events. -/
def isClockRead : PEvent → Bool
  | PEvent.clockRead _ => true
  | _ => false

/-- The events strictly between the first clock read of a trace and the
clock read that follows it: the timed window of a sample. -/
def timedWindow (tr : List PEvent) : List PEvent :=
  ((tr.dropWhile (fun e => !isClockRead e)).drop 1).takeWhile
    (fun e => !isClockRead e)

/-- The inner item loop of `prvProducerTask`: `count` remaining
`xQueueSend(xQueueHandles[core], &Temp, 0)` calls sending the running
counter `iItems`, each checked by
`TEST_ASSERT_EQUAL_MESSAGE(pdTRUE, ..., "xQueueSend() failed")`. -/
def sendItems : Queue → Nat → Nat → Except String (Queue × List PEvent)
  | q, _, 0 => Except.ok (q, [])
  | q, iItems, count + 1 =>
    let r := xQueueSend q (Int.ofNat iItems)
    if r.1 then
      match sendItems r.2 (iItems + 1) count with
      | Except.ok (q2, evs) =>
          Except.ok (q2, PEvent.enqueue (Int.ofNat iItems) true :: evs)
      | Except.error e => Except.error e
    else Except.error "xQueueSend() failed"

/-- Mutable state of one producer task between iterations: how many clock
reads it has issued, its private queue `xQueueHandles[core]`, and its slot
of `uxElapsedCumulative`. -/
structure ProducerState where
  readIdx : Nat
  queue : Queue
  cumulative : Nat
  deriving DecidableEq, Repr

/-- One iteration of the sample loop of `prvProducerTask`: wait for the
start notification, read the start time, send `numItems` items, read the
end time and add the elapsed time to the cumulative count, reset the
queue, signal iteration completion. -/
def prvProducerRound (clock : Clock) (numItems : Nat) (s : ProducerState) :
    Except String (ProducerState × List PEvent) :=
  let t0 := read clock s.readIdx
  match sendItems s.queue 0 numItems with
  | Except.error e => Except.error e
  | Except.ok (q2, evs) =>
    let t1 := read clock (s.readIdx + 1)
    Except.ok
      ({ readIdx := s.readIdx + 2
         queue := xQueueReset q2
         cumulative := wordAdd s.cumulative (wordSub t1 t0) },
       PEvent.notifyTake :: PEvent.clockRead t0 :: evs ++
         [PEvent.clockRead t1, PEvent.accumulate (wordSub t1 t0),
          PEvent.queueReset, PEvent.semGive])

/-- The sample loop of `prvProducerTask`, running the given number of
remaining iterations. -/
def prvProducerRun (clock : Clock) (numItems : Nat) :
    ProducerState → Nat → Except String (ProducerState × List PEvent)
  | s, 0 => Except.ok (s, [])
  | s, n + 1 =>
    match prvProducerRound clock numItems s with
    | Except.error e => Except.error e
    | Except.ok (s2, evs) =>
      match prvProducerRun clock numItems s2 n with
      | Except.error e => Except.error e
      | Except.ok (s3, evs2) => Except.ok (s3, evs ++ evs2)

/-- Per-core state installed by `setup_idf`: `uxElapsedCumulative[i] = 0`,
no clock reads issued yet, and a fresh queue
`xQueueCreate(portTEST_NUM_ITEMS, sizeof(int))` (the capacity parameter is
kept general here; the driver instantiates it). -/
def coreInitialState (capacity : Nat) : ProducerState :=
  ⟨0, xQueueCreate capacity, 0⟩

example :
    prvProducerRound (fun k => 10 * k) 2 (coreInitialState 2) =
      Except.ok (⟨2, ⟨2, []⟩, 10⟩,
        [PEvent.notifyTake, PEvent.clockRead 0, PEvent.enqueue 0 true,
         PEvent.enqueue 1 true, PEvent.clockRead 10, PEvent.accumulate 10,
         PEvent.queueReset, PEvent.semGive]) := rfl

/-- Synchronization actions issued by the main task `Test_QueueContention`
(the Contention Coordinator), in program order: `release core` is
`xTaskNotifyGive(xProducerTaskHandles[core])`, `consume` is
`xSemaphoreTake(xIterDoneSem, portMAX_DELAY)`. -/
inductive CEvent where
  | release : Nat → CEvent
  | consume : CEvent
  deriving DecidableEq, Repr

/-- Discriminator for release events. -/
def isRelease : CEvent → Bool
  | CEvent.release _ => true
  | CEvent.consume => false

/-- Discriminator for completion-consumption events. -/
def isConsume : CEvent → Bool
  | CEvent.release _ => false
  | CEvent.consume => true

/-- The release phase of one iteration of `Test_QueueContention`: the
`for (iCore ...)` loop notifies every producer whose core differs from
`portGET_CORE_ID()` (the coordinator's own core, `self`), then the
producer of the coordinator's own core is notified last. -/
def releasePhase (numCores self : Nat) : List CEvent :=
  ((List.range numCores).filter (fun c => c != self)).map CEvent.release ++
    [CEvent.release self]

/-- The completion phase of one iteration of `Test_QueueContention`: the
semaphore is taken once per core. -/
def consumePhase (numCores : Nat) : List CEvent :=
  (List.range numCores).map (fun _ => CEvent.consume)

/-- One iteration of the coordinator loop: release all producers, then
wait until all cores have completed this iteration. -/
def coordRound (numCores self : Nat) : List CEvent :=
  releasePhase numCores self ++ consumePhase numCores

/-- The full synchronization trace of the `for (iIter ...)` loop of
`Test_QueueContention`, each event labelled with the iteration (round)
that issued it. -/
def coordTrace (numCores self iters : Nat) : List (Nat × CEvent) :=
  (List.range iters).flatMap
    (fun r => (coordRound numCores self).map (fun e => (r, e)))

/-- The average-report loop at the end of `Test_QueueContention`, fused
with the per-core producer runs: for each core in order it produces the
pair printed by `printf("Core %d: %d\n", iCore,
(uxElapsedCumulative[iCore] / portTEST_NUM_SAMPLES))`.  A failed
`TEST_ASSERT` in any producer aborts the whole run before anything is
printed. -/
def reportCores (clocks : Nat → Clock) (capacity numItems numSamples : Nat) :
    List Nat → Except String (List (Nat × Nat))
  | [] => Except.ok []
  | core :: rest =>
    match prvProducerRun (clocks core) numItems (coreInitialState capacity)
        numSamples with
    | Except.error e => Except.error e
    | Except.ok (s, _) =>
      match reportCores clocks capacity numItems numSamples rest with
      | Except.error e => Except.error e
      | Except.ok tail =>
          Except.ok ((core, s.cumulative / numSamples) :: tail)

/-- The observable result of the test case "Queue Contention": `setup_idf`
zeroes the accumulators and creates one queue of the given capacity per
core, each producer runs `numSamples` iterations of `numItems` sends on
its own core, and the driver reports one `(core, average)` pair per
core. -/
def Test_QueueContention (clocks : Nat → Clock)
    (capacity numItems numSamples numCores : Nat) :
    Except String (List (Nat × Nat)) :=
  reportCores clocks capacity numItems numSamples (List.range numCores)

/-- The sample loop of `Test_CriticalSectionSpeed` in `crit_speed.c`:
iteration arguments are the index of the next clock read and the two
cumulative counters `uxEntryElapsedCumulative` / `uxExitElapsedCumulative`.
Each iteration times one `taskENTER_CRITICAL()` call between reads
`readIdx, readIdx+1` and one `taskEXIT_CRITICAL()` call between reads
`readIdx+2, readIdx+3`. -/
def critSpeedLoop (clock : Clock) :
    Nat → Nat → Nat → Nat → Nat × Nat
  | _, entryCum, exitCum, 0 => (entryCum, exitCum)
  | readIdx, entryCum, exitCum, n + 1 =>
    critSpeedLoop clock (readIdx + 4)
      (wordAdd entryCum (wordSub (read clock (readIdx + 1)) (read clock readIdx)))
      (wordAdd exitCum (wordSub (read clock (readIdx + 3)) (read clock (readIdx + 2))))
      n

/-- The observable result of the test case "Critical Section Speed": the
two lines printed at the end, as `(label, average)` pairs. -/
def Test_CriticalSectionSpeed (clock : Clock) : List (String × Nat) :=
  let r := critSpeedLoop clock 0 0 0 portTEST_NUM_SAMPLES
  [("taskENTER_CRITICAL()", r.1 / portTEST_NUM_SAMPLES),
   ("taskEXIT_CRITICAL()", r.2 / portTEST_NUM_SAMPLES)]

/-- The first loop of `Test_QueueSpeedNonBlocking` in `queue_speed.c`:
each iteration times one `xQueueSend(xQueueHandle, &i, 0)` sending the
loop counter, checked by `TEST_ASSERT_EQUAL_MESSAGE(pdTRUE, ...,
"xQueueSend() failed")`. -/
def queueSpeedSendLoop (clock : Clock) :
    Nat → Queue → Nat → Nat → Nat → Except String (Nat × Queue × Nat)
  | readIdx, q, cum, _, 0 => Except.ok (readIdx, q, cum)
  | readIdx, q, cum, i, n + 1 =>
    let t0 := read clock readIdx
    let r := xQueueSend q (Int.ofNat i)
    if r.1 then
      queueSpeedSendLoop clock (readIdx + 2) r.2
        (wordAdd cum (wordSub (read clock (readIdx + 1)) t0)) (i + 1) n
    else Except.error "xQueueSend() failed"

/-- The second loop of `Test_QueueSpeedNonBlocking`: each iteration times
one `xQueueReceive(xQueueHandle, &iValue, 0)`, checked by
`TEST_ASSERT_EQUAL_MESSAGE(pdTRUE, ..., "xQueueReceive() failed")`.  The
list argument records the sequence of values received into `iValue`. -/
def queueSpeedRecvLoop (clock : Clock) :
    Nat → Queue → Nat → List Int → Nat →
    Except String (Nat × Queue × Nat × List Int)
  | readIdx, q, cum, vals, 0 => Except.ok (readIdx, q, cum, vals)
  | readIdx, q, cum, vals, n + 1 =>
    let t0 := read clock readIdx
    match xQueueReceive q with
    | (some v, q2) =>
      queueSpeedRecvLoop clock (readIdx + 2) q2
        (wordAdd cum (wordSub (read clock (readIdx + 1)) t0)) (vals ++ [v]) n
    | (none, _) => Except.error "xQueueReceive() failed"

/-- The observable result of the test case "Queue Speed": `setup_idf`
creates a queue of capacity `portTEST_NUM_SAMPLES`, the two loops run
`portTEST_NUM_SAMPLES` sends then receives, and the two printed
`(label, average)` lines are produced.  The final queue state and the
sequence of received values are kept as observations. -/
def Test_QueueSpeedNonBlocking (clock : Clock) :
    Except String (List (String × Nat) × Queue × List Int) :=
  let q := xQueueCreate portTEST_NUM_SAMPLES
  match queueSpeedSendLoop clock 0 q 0 0 portTEST_NUM_SAMPLES with
  | Except.error e => Except.error e
  | Except.ok (readIdx, q1, sendCum) =>
    match queueSpeedRecvLoop clock readIdx q1 0 [] portTEST_NUM_SAMPLES with
    | Except.error e => Except.error e
    | Except.ok (_, q2, recvCum, vals) =>
      Except.ok
        ([("xQueueSend()", sendCum / portTEST_NUM_SAMPLES),
          ("xQueueReceive()", recvCum / portTEST_NUM_SAMPLES)], q2, vals)

/-- The 32-bit sample computed from the pair of clock reads at indices
`base` and `base + 1`, exactly as the C code computes it:
`portTEST_GET_TIME() - uxTempTime` on `UBaseType_t`. -/
def wordSampleAt (clock : Clock) (base : Nat) : Nat :=
  wordSub (read clock (base + 1)) (read clock base)

/-- Running 32-bit total of the samples taken at
`base, base + 2, base + 4, ...` (without the modular reduction applied by
the accumulator; the reduction is accounted for separately). -/
def wordSampleSum (clock : Clock) : Nat → Nat → Nat
  | _, 0 => 0
  | base, n + 1 => wordSampleAt clock base + wordSampleSum clock (base + 2) n

/-- The true (unbounded) elapsed duration of round `r` of a producer: the
difference of the two bounding clock readings. -/
def elapsedSample (clock : Clock) (r : Nat) : Nat :=
  read clock (2 * r + 1) - read clock (2 * r)

/-- The true arithmetic sum of the first `n` per-round elapsed durations
of a producer. -/
def sampleSum (clock : Clock) (n : Nat) : Nat :=
  ((List.range n).map (elapsedSample clock)).sum

/-- The sequence of item values sent by `count` consecutive iterations of
the inner loop of `prvProducerTask` starting at counter value
`iItems`. -/
def sentVals : Nat → Nat → List Int
  | _, 0 => []
  | iItems, count + 1 => Int.ofNat iItems :: sentVals (iItems + 1) count

/-- The enqueue events emitted by `count` consecutive successful
iterations of the inner loop starting at counter value `iItems`. -/
def enqTrace : Nat → Nat → List PEvent
  | _, 0 => []
  | iItems, count + 1 =>
    PEvent.enqueue (Int.ofNat iItems) true :: enqTrace (iItems + 1) count

/-- The event trace of one successful iteration of `prvProducerTask`
whose first clock read has index `base`. -/
def roundTraceModel (clock : Clock) (base numItems : Nat) : List PEvent :=
  PEvent.notifyTake :: PEvent.clockRead (read clock base) ::
    enqTrace 0 numItems ++
      [PEvent.clockRead (read clock (base + 1)),
       PEvent.accumulate (wordSampleAt clock base),
       PEvent.queueReset, PEvent.semGive]

/-- The event trace of `n` successful iterations of `prvProducerTask`
whose first clock read has index `base`. -/
def runTraceModel (clock : Clock) (numItems : Nat) : Nat → Nat → List PEvent
  | _, 0 => []
  | base, n + 1 =>
    roundTraceModel clock base numItems ++
      runTraceModel clock numItems (base + 2) n

/-- The per-round decomposition of a producer's trace. -/
def runRounds (clock : Clock) (numItems base n : Nat) : List (List PEvent) :=
  (List.range n).map (fun r => roundTraceModel clock (base + 2 * r) numItems)

theorem wordMod_pos : 0 < wordMod := by decide

theorem read_lt (clock : Clock) (k : Nat) : read clock k < wordMod :=
  Nat.mod_lt _ wordMod_pos

theorem wordAdd_lt (a b : Nat) : wordAdd a b < wordMod :=
  Nat.mod_lt _ wordMod_pos

theorem wordSub_of_le {a b : Nat} (hba : b ≤ a) (ha : a < wordMod) :
    wordSub a b = a - b := by
  have hb : b % wordMod = b := Nat.mod_eq_of_lt (lt_of_le_of_lt hba ha)
  simp only [wordSub, hb, wordMod] at *
  omega

theorem sentVals_length (count : Nat) :
    ∀ iItems, (sentVals iItems count).length = count := by
  induction count with
  | zero => intro i; simp [sentVals]
  | succ n ih => intro i; simp [sentVals, ih]

theorem sentVals_eq_range (count : Nat) :
    ∀ iItems, sentVals iItems count =
      (List.range count).map (fun j => Int.ofNat (iItems + j)) := by
  induction count with
  | zero => intro i; simp [sentVals]
  | succ n ih =>
    intro i
    rw [List.range_succ_eq_map]
    simp only [sentVals, List.map_cons, List.map_map, ih]
    refine List.cons_eq_cons.mpr ⟨by simp, ?_⟩
    refine List.map_congr_left (fun j _ => ?_)
    simp [Function.comp]
    omega

theorem enqTrace_length (count : Nat) :
    ∀ iItems, (enqTrace iItems count).length = count := by
  induction count with
  | zero => intro i; simp [enqTrace]
  | succ n ih => intro i; simp [enqTrace, ih]

theorem enqTrace_mem (count : Nat) :
    ∀ iItems, ∀ e ∈ enqTrace iItems count,
      isEnqueue e = true ∧ isSuccessfulEnqueue e = true ∧
        isClockRead e = false := by
  induction count with
  | zero => intro i e he; simp [enqTrace] at he
  | succ n ih =>
    intro i e he
    simp only [enqTrace, List.mem_cons] at he
    rcases he with h | h
    · subst h; exact ⟨rfl, rfl, rfl⟩
    · exact ih (i + 1) e h

theorem enqTrace_countP (count : Nat) :
    ∀ iItems, (enqTrace iItems count).countP isEnqueue = count := by
  induction count with
  | zero => intro i; simp [enqTrace]
  | succ n ih =>
    intro i
    rw [enqTrace, List.countP_cons_of_pos _ _ (by rfl), ih]

theorem sendItems_ok (count : Nat) :
    ∀ (q : Queue) (iItems : Nat), q.items.length + count ≤ q.capacity →
      sendItems q iItems count =
        Except.ok (⟨q.capacity, q.items ++ sentVals iItems count⟩,
          enqTrace iItems count) := by
  induction count with
  | zero =>
    intro q iItems _
    simp [sendItems, sentVals, enqTrace]
  | succ n ih =>
    intro q iItems h
    have hlt : q.items.length < q.capacity := by omega
    have h2 : (Queue.mk q.capacity (q.items ++ [Int.ofNat iItems])).items.length
        + n ≤ (Queue.mk q.capacity (q.items ++ [Int.ofNat iItems])).capacity := by
      simp; omega
    simp only [sendItems, xQueueSend, if_pos hlt]
    rw [ih _ (iItems + 1) h2]
    simp [sentVals, enqTrace]

theorem prvProducerRound_ok (clock : Clock) (numItems : Nat)
    (s : ProducerState) (hempty : s.queue.items = [])
    (hcap : numItems ≤ s.queue.capacity) :
    prvProducerRound clock numItems s =
      Except.ok
        (⟨s.readIdx + 2, ⟨s.queue.capacity, []⟩,
          wordAdd s.cumulative (wordSampleAt clock s.readIdx)⟩,
         roundTraceModel clock s.readIdx numItems) := by
  have hsend : s.queue.items.length + numItems ≤ s.queue.capacity := by
    rw [hempty]; simpa using hcap
  simp only [prvProducerRound, sendItems_ok numItems s.queue 0 hsend]
  simp [xQueueReset, roundTraceModel, wordSampleAt, hempty]

theorem prvProducerRun_ok (clock : Clock) (numItems : Nat) (n : Nat) :
    ∀ (s : ProducerState), s.queue.items = [] →
      numItems ≤ s.queue.capacity → s.cumulative < wordMod →
      prvProducerRun clock numItems s n =
        Except.ok
          (⟨s.readIdx + 2 * n, ⟨s.queue.capacity, []⟩,
            (s.cumulative + wordSampleSum clock s.readIdx n) % wordMod⟩,
           runTraceModel clock numItems s.readIdx n) := by
  induction n with
  | zero =>
    intro s hempty _ hcum
    obtain ⟨ri, ⟨cap, its⟩, cum⟩ := s
    simp only at hempty
    subst hempty
    simp [prvProducerRun, wordSampleSum, runTraceModel,
      Nat.mod_eq_of_lt hcum]
  | succ n ih =>
    intro s hempty hcap hcum
    rw [prvProducerRun, prvProducerRound_ok clock numItems s hempty hcap]
    dsimp only
    rw [ih ⟨s.readIdx + 2, ⟨s.queue.capacity, []⟩,
          wordAdd s.cumulative (wordSampleAt clock s.readIdx)⟩
        rfl hcap (wordAdd_lt _ _)]
    dsimp only
    simp only [runTraceModel, wordSampleSum, wordAdd]
    rw [Nat.mod_add_mod]
    have : s.readIdx + 2 + 2 * n = s.readIdx + 2 * (n + 1) := by omega
    rw [this, Nat.add_assoc]

/-- True (unbounded) total of the elapsed durations sampled at
`base, base + 2, ...`, defined by the same recursion as the run. -/
def trueSampleSum (clock : Clock) : Nat → Nat → Nat
  | _, 0 => 0
  | base, n + 1 =>
    (read clock (base + 1) - read clock base) +
      trueSampleSum clock (base + 2) n

theorem wordSampleSum_eq_trueSampleSum (clock : Clock) (n : Nat) :
    ∀ base,
      (∀ r, r < n → read clock (base + 2 * r) ≤ read clock (base + 2 * r + 1)) →
      wordSampleSum clock base n = trueSampleSum clock base n := by
  induction n with
  | zero => intro base _; rfl
  | succ n ih =>
    intro base h
    have h0 : read clock base ≤ read clock (base + 1) := by
      have := h 0 (Nat.succ_pos n); simpa using this
    rw [wordSampleSum, trueSampleSum, wordSampleAt,
      wordSub_of_le h0 (read_lt _ _)]
    congr 1
    refine ih (base + 2) (fun r hr => ?_)
    have := h (r + 1) (by omega)
    have e : base + 2 * (r + 1) = base + 2 + 2 * r := by omega
    rwa [e] at this

theorem trueSampleSum_eq_sampleSum (clock : Clock) (n : Nat) :
    ∀ k, trueSampleSum clock (2 * k) n =
      ((List.range n).map (fun r => elapsedSample clock (k + r))).sum := by
  induction n with
  | zero => intro k; simp [trueSampleSum]
  | succ n ih =>
    intro k
    have e2 : 2 * k + 2 = 2 * (k + 1) := by omega
    rw [trueSampleSum, List.range_succ_eq_map]
    simp only [List.map_cons, List.sum_cons, List.map_map]
    congr 1
    rw [e2, ih (k + 1)]
    refine congrArg List.sum ?_
    refine List.map_congr_left (fun r _ => ?_)
    simp only [Function.comp_apply]
    have e3 : k + 1 + r = k + (r + 1) := by omega
    rw [e3]

theorem run_cumulative_eq (clock : Clock) (n : Nat)
    (hmono : ∀ r, r < n → read clock (2 * r) ≤ read clock (2 * r + 1)) :
    (0 + wordSampleSum clock 0 n) % wordMod = sampleSum clock n % wordMod := by
  have h0 : ∀ r, r < n →
      read clock (0 + 2 * r) ≤ read clock (0 + 2 * r + 1) := by
    intro r hr; simpa using hmono r hr
  rw [Nat.zero_add, wordSampleSum_eq_trueSampleSum clock n 0 h0]
  have h1 := trueSampleSum_eq_sampleSum clock n 0
  simp only [Nat.mul_zero] at h1
  rw [h1, sampleSum]
  have h2 : (List.range n).map (fun r => elapsedSample clock (0 + r)) =
      (List.range n).map (elapsedSample clock) :=
    List.map_congr_left (fun r _ => by rw [Nat.zero_add])
  rw [h2]

theorem takeWhile_until_clockRead (t : Nat) (rest : List PEvent) :
    ∀ l : List PEvent, (∀ e ∈ l, isClockRead e = false) →
      (l ++ PEvent.clockRead t :: rest).takeWhile (fun e => !isClockRead e) =
        l := by
  intro l
  induction l with
  | nil => intro _; simp [List.takeWhile_cons, isClockRead]
  | cons a as ih =>
    intro h
    have ha := h a (by simp)
    simp only [List.cons_append, List.takeWhile_cons, ha]
    simp [ih (fun e he => h e (by simp [he]))]

theorem timedWindow_roundTraceModel (clock : Clock) (base numItems : Nat) :
    timedWindow (roundTraceModel clock base numItems) =
      enqTrace 0 numItems := by
  rw [timedWindow, roundTraceModel]
  simp only [List.dropWhile_cons, isClockRead, Bool.not_true, Bool.not_false,
    if_true, if_false, List.drop_one, List.tail_cons]
  exact takeWhile_until_clockRead _ _ _
    (fun e he => (enqTrace_mem numItems 0 e he).2.2)

theorem runTraceModel_eq_flatten (clock : Clock) (numItems : Nat) (n : Nat) :
    ∀ base, runTraceModel clock numItems base n =
      (runRounds clock numItems base n).flatten := by
  induction n with
  | zero => intro base; simp [runTraceModel, runRounds]
  | succ n ih =>
    intro base
    rw [runTraceModel, ih (base + 2)]
    conv_rhs => rw [runRounds, List.range_succ_eq_map]
    simp only [List.map_cons, List.flatten_cons, List.map_map]
    congr 1
    rw [runRounds]
    refine congrArg List.flatten ?_
    refine List.map_congr_left (fun r _ => ?_)
    simp only [Function.comp_apply]
    have e : base + 2 * (r + 1) = base + 2 + 2 * r := by omega
    rw [e]

theorem runRounds_length (clock : Clock) (numItems base n : Nat) :
    (runRounds clock numItems base n).length = n := by
  simp [runRounds]

theorem reportCores_ok (clocks : Nat → Clock)
    (capacity numItems numSamples : Nat) (hcap : numItems ≤ capacity) :
    ∀ l : List Nat, reportCores clocks capacity numItems numSamples l =
      Except.ok (l.map (fun core =>
        (core, (0 + wordSampleSum (clocks core) 0 numSamples) % wordMod /
          numSamples))) := by
  intro l
  induction l with
  | nil => simp [reportCores]
  | cons core rest ih =>
    rw [reportCores,
      prvProducerRun_ok (clocks core) numItems numSamples
        (coreInitialState capacity) rfl hcap wordMod_pos]
    dsimp only
    rw [ih]
    simp [coreInitialState]

theorem runRounds_window (clock : Clock) (numItems base n : Nat) :
    ∀ rt ∈ runRounds clock numItems base n,
      (timedWindow rt).length = numItems ∧
        ∀ e ∈ timedWindow rt, isSuccessfulEnqueue e = true := by
  intro rt hrt
  rw [runRounds] at hrt
  obtain ⟨r, _, hrt⟩ := List.mem_map.mp hrt
  subst hrt
  rw [timedWindow_roundTraceModel]
  exact ⟨enqTrace_length numItems 0,
    fun e he => (enqTrace_mem numItems 0 e he).2.1⟩

theorem roundTraceModel_countP (clock : Clock) (base numItems : Nat) :
    (roundTraceModel clock base numItems).countP isEnqueue = numItems := by
  simp only [roundTraceModel, List.countP_cons, List.countP_append,
    List.countP_nil, isEnqueue, enqTrace_countP]
  rfl

theorem roundTraceModel_enqueues_ok (clock : Clock) (base numItems : Nat) :
    ∀ e ∈ roundTraceModel clock base numItems,
      isEnqueue e = true → isSuccessfulEnqueue e = true := by
  intro e he hi
  simp only [roundTraceModel, List.mem_cons, List.mem_append] at he
  rcases he with (rfl | rfl | h) | h
  · cases hi
  · cases hi
  · exact (enqTrace_mem numItems 0 e h).2.1
  · rcases h with rfl | rfl | rfl | rfl | h
    · cases hi
    · cases hi
    · cases hi
    · cases hi
    · cases h

/-- C1: with 2 cores, a 256-item workload and 128 iterations, a complete
run of the queue-contention benchmark reports exactly 2 per-core
averages; the average of each core is the sum of that core's 128
per-round elapsed-cycle samples divided by 128; and each round's timed
window contains exactly 256 successful non-blocking enqueue operations on
that core's private queue.  The hypotheses state the spec's no-wrap
assumption: within a run the cycle counter is monotonic across each timed
window and the cumulative sum of a core's samples fits the 32-bit
word. -/
theorem queueContention_concrete_scenario (clocks : Nat → Clock)
    (hmono : ∀ core, core < configNUMBER_OF_CORES →
      ∀ r, r < portTEST_NUM_SAMPLES →
        read (clocks core) (2 * r) ≤ read (clocks core) (2 * r + 1))
    (hfit : ∀ core, core < configNUMBER_OF_CORES →
      sampleSum (clocks core) portTEST_NUM_SAMPLES < wordMod) :
    Test_QueueContention clocks portTEST_NUM_ITEMS portTEST_NUM_ITEMS
        portTEST_NUM_SAMPLES configNUMBER_OF_CORES =
      Except.ok
        [(0, sampleSum (clocks 0) portTEST_NUM_SAMPLES / portTEST_NUM_SAMPLES),
         (1, sampleSum (clocks 1) portTEST_NUM_SAMPLES / portTEST_NUM_SAMPLES)] ∧
    (∀ core, core < configNUMBER_OF_CORES →
      ∃ s, prvProducerRun (clocks core) portTEST_NUM_ITEMS
          (coreInitialState portTEST_NUM_ITEMS) portTEST_NUM_SAMPLES =
        Except.ok (s,
          (runRounds (clocks core) portTEST_NUM_ITEMS 0
            portTEST_NUM_SAMPLES).flatten) ∧
        (runRounds (clocks core) portTEST_NUM_ITEMS 0
          portTEST_NUM_SAMPLES).length = portTEST_NUM_SAMPLES ∧
        ∀ rt ∈ runRounds (clocks core) portTEST_NUM_ITEMS 0
            portTEST_NUM_SAMPLES,
          (timedWindow rt).length = portTEST_NUM_ITEMS ∧
            ∀ e ∈ timedWindow rt, isSuccessfulEnqueue e = true) := by
  constructor
  · rw [Test_QueueContention,
      reportCores_ok clocks portTEST_NUM_ITEMS portTEST_NUM_ITEMS
        portTEST_NUM_SAMPLES (le_refl _)]
    have hrange : List.range configNUMBER_OF_CORES = [0, 1] := rfl
    rw [hrange]
    have hc : ∀ core, core < configNUMBER_OF_CORES →
        (0 + wordSampleSum (clocks core) 0 portTEST_NUM_SAMPLES) % wordMod =
          sampleSum (clocks core) portTEST_NUM_SAMPLES := by
      intro core hcore
      rw [run_cumulative_eq (clocks core) portTEST_NUM_SAMPLES
        (hmono core hcore)]
      exact Nat.mod_eq_of_lt (hfit core hcore)
    simp only [List.map_cons, List.map_nil]
    rw [hc 0 (by decide), hc 1 (by decide)]
  · intro core hcore
    have hrun := prvProducerRun_ok (clocks core) portTEST_NUM_ITEMS
      portTEST_NUM_SAMPLES (coreInitialState portTEST_NUM_ITEMS) rfl
      (le_refl _) wordMod_pos
    simp only [coreInitialState, xQueueCreate] at hrun
    rw [runTraceModel_eq_flatten (clocks core) portTEST_NUM_ITEMS
      portTEST_NUM_SAMPLES] at hrun
    exact ⟨_, hrun, runRounds_length _ _ _ _, runRounds_window _ _ _ _⟩

set_option maxRecDepth 4000 in
/-- C1 witness: the identity clock on both cores satisfies the no-wrap
hypotheses, and the run reports the two averages. -/
theorem queueContention_concrete_scenario_witness :
    Test_QueueContention (fun _ k => k) portTEST_NUM_ITEMS portTEST_NUM_ITEMS
        portTEST_NUM_SAMPLES configNUMBER_OF_CORES =
      Except.ok
        [(0, sampleSum (fun k => k) portTEST_NUM_SAMPLES /
            portTEST_NUM_SAMPLES),
         (1, sampleSum (fun k => k) portTEST_NUM_SAMPLES /
            portTEST_NUM_SAMPLES)] :=
  (queueContention_concrete_scenario (fun _ k => k) (by decide)
    (by decide)).1

/-- C4: in every iteration of a producer, the sample added to the
accumulator is the difference of the two clock readings that bound the
workload; between the two readings only enqueue events occur, and the
queue reset happens after the second reading, so the reset's cost is
excluded from the timed window. -/
theorem sample_window_excludes_reset (clock : Clock) (numItems : Nat)
    (s : ProducerState) (hempty : s.queue.items = [])
    (hcap : numItems ≤ s.queue.capacity) :
    prvProducerRound clock numItems s =
      Except.ok
        (⟨s.readIdx + 2, ⟨s.queue.capacity, []⟩,
          wordAdd s.cumulative
            (wordSub (read clock (s.readIdx + 1)) (read clock s.readIdx))⟩,
         roundTraceModel clock s.readIdx numItems) ∧
    roundTraceModel clock s.readIdx numItems =
      (PEvent.notifyTake :: PEvent.clockRead (read clock s.readIdx) ::
          enqTrace 0 numItems) ++
        [PEvent.clockRead (read clock (s.readIdx + 1)),
         PEvent.accumulate
           (wordSub (read clock (s.readIdx + 1)) (read clock s.readIdx)),
         PEvent.queueReset, PEvent.semGive] ∧
    timedWindow (roundTraceModel clock s.readIdx numItems) =
      enqTrace 0 numItems ∧
    (∀ e ∈ timedWindow (roundTraceModel clock s.readIdx numItems),
      isEnqueue e = true) ∧
    PEvent.queueReset ∉
      timedWindow (roundTraceModel clock s.readIdx numItems) := by
  refine ⟨prvProducerRound_ok clock numItems s hempty hcap, by
      simp [roundTraceModel, wordSampleAt], timedWindow_roundTraceModel _ _ _,
    ?_, ?_⟩
  · rw [timedWindow_roundTraceModel]
    exact fun e he => (enqTrace_mem numItems 0 e he).1
  · rw [timedWindow_roundTraceModel]
    intro hmem
    have := (enqTrace_mem numItems 0 _ hmem).1
    cases this

/-- C4 witness: a concrete one-item round on the identity clock. -/
theorem sample_window_excludes_reset_witness :
    prvProducerRound (fun k => k) 1 (coreInitialState 1) =
      Except.ok
        (⟨(coreInitialState 1).readIdx + 2, ⟨(coreInitialState 1).queue.capacity, []⟩,
          wordAdd (coreInitialState 1).cumulative
            (wordSub (read (fun k => k) ((coreInitialState 1).readIdx + 1))
              (read (fun k => k) (coreInitialState 1).readIdx))⟩,
         roundTraceModel (fun k => k) (coreInitialState 1).readIdx 1) ∧
    PEvent.queueReset ∉
      timedWindow (roundTraceModel (fun k => k) (coreInitialState 1).readIdx 1) :=
  ⟨(sample_window_excludes_reset (fun k => k) 1 (coreInitialState 1) rfl
      (by decide)).1,
   (sample_window_excludes_reset (fun k => k) 1 (coreInitialState 1) rfl
      (by decide)).2.2.2.2⟩

/-- C5: the reported per-core averages of the queue-contention benchmark
and the two averages of the critical-section benchmark are the
accumulator divided by the sample count with natural-number (truncating)
division: the reported value `v` satisfies
`samples * v ≤ cumulative < samples * v + samples`, the fractional
remainder being discarded. -/
theorem averages_use_integer_division (clocks : Nat → Clock)
    (clock : Clock) :
    (∃ report,
      Test_QueueContention clocks portTEST_NUM_ITEMS portTEST_NUM_ITEMS
          portTEST_NUM_SAMPLES configNUMBER_OF_CORES = Except.ok report ∧
      report.length = configNUMBER_OF_CORES ∧
      ∀ core, core < configNUMBER_OF_CORES →
        ∃ s tr, prvProducerRun (clocks core) portTEST_NUM_ITEMS
            (coreInitialState portTEST_NUM_ITEMS) portTEST_NUM_SAMPLES =
          Except.ok (s, tr) ∧
        (core, s.cumulative / portTEST_NUM_SAMPLES) ∈ report ∧
        portTEST_NUM_SAMPLES * (s.cumulative / portTEST_NUM_SAMPLES) ≤
          s.cumulative ∧
        s.cumulative -
          portTEST_NUM_SAMPLES * (s.cumulative / portTEST_NUM_SAMPLES) <
          portTEST_NUM_SAMPLES) ∧
    (∀ label avg, (label, avg) ∈ Test_CriticalSectionSpeed clock →
      ∃ cum, avg = cum / portTEST_NUM_SAMPLES ∧
        portTEST_NUM_SAMPLES * avg ≤ cum ∧
        cum - portTEST_NUM_SAMPLES * avg < portTEST_NUM_SAMPLES) := by
  constructor
  · refine ⟨_, by
      rw [Test_QueueContention, reportCores_ok clocks portTEST_NUM_ITEMS
        portTEST_NUM_ITEMS portTEST_NUM_SAMPLES (le_refl _)], by simp, ?_⟩
    intro core hcore
    have hrun := prvProducerRun_ok (clocks core) portTEST_NUM_ITEMS
      portTEST_NUM_SAMPLES (coreInitialState portTEST_NUM_ITEMS) rfl
      (le_refl _) wordMod_pos
    refine ⟨_, _, hrun, ?_, ?_, ?_⟩
    · simp only [coreInitialState]
      refine List.mem_map.mpr ⟨core, ?_, rfl⟩
      exact List.mem_range.mpr hcore
    · have := Nat.div_add_mod
        (((coreInitialState portTEST_NUM_ITEMS).cumulative +
          wordSampleSum (clocks core)
            (coreInitialState portTEST_NUM_ITEMS).readIdx
            portTEST_NUM_SAMPLES) % wordMod) portTEST_NUM_SAMPLES
      simp only [portTEST_NUM_SAMPLES] at this ⊢
      omega
    · simp only [portTEST_NUM_SAMPLES]
      omega
  · intro label avg hmem
    simp only [Test_CriticalSectionSpeed, List.mem_cons,
      List.not_mem_nil, Prod.mk.injEq, or_false] at hmem
    rcases hmem with ⟨_, havg⟩ | ⟨_, havg⟩
    · subst havg
      exact ⟨_, rfl, by simp only [portTEST_NUM_SAMPLES]; omega,
        by simp only [portTEST_NUM_SAMPLES]; omega⟩
    · subst havg
      exact ⟨_, rfl, by simp only [portTEST_NUM_SAMPLES]; omega,
        by simp only [portTEST_NUM_SAMPLES]; omega⟩

/-- C6: every round of a producer whose queue was created with capacity
equal to the workload size begins with the private queue holding exactly
0 items (state after `r` completed rounds), and from that state the next
round's `numItems` non-blocking enqueues all succeed: its trace carries
exactly `numItems` enqueue events, all successful, so the queue-full
failure branch is not taken. -/
theorem queue_reset_isolation (clock : Clock) (numItems r : Nat) :
    (∃ cum tr, prvProducerRun clock numItems (coreInitialState numItems) r =
      Except.ok (⟨2 * r, ⟨numItems, []⟩, cum⟩, tr) ∧
      ∃ s2, prvProducerRound clock numItems ⟨2 * r, ⟨numItems, []⟩, cum⟩ =
        Except.ok (s2, roundTraceModel clock (2 * r) numItems) ∧
        s2.queue.items = []) ∧
    (roundTraceModel clock (2 * r) numItems).countP isEnqueue = numItems ∧
    (∀ e ∈ roundTraceModel clock (2 * r) numItems,
      isEnqueue e = true → isSuccessfulEnqueue e = true) := by
  have hrun := prvProducerRun_ok clock numItems r
    (coreInitialState numItems) rfl (le_refl _) wordMod_pos
  simp only [coreInitialState, xQueueCreate, Nat.zero_add] at hrun
  have hround := prvProducerRound_ok clock numItems
    ⟨2 * r, ⟨numItems, []⟩, wordSampleSum clock 0 r % wordMod⟩ rfl (le_refl _)
  exact ⟨⟨_, _, hrun, _, hround, rfl⟩, roundTraceModel_countP _ _ _,
    roundTraceModel_enqueues_ok _ _ _⟩

/-- True elapsed duration of the `taskENTER_CRITICAL()` call of sample
`i` of `Test_CriticalSectionSpeed`. -/
def enterSample (clock : Clock) (i : Nat) : Nat :=
  read clock (4 * i + 1) - read clock (4 * i)

/-- True elapsed duration of the `taskEXIT_CRITICAL()` call of sample
`i` of `Test_CriticalSectionSpeed`. -/
def exitSample (clock : Clock) (i : Nat) : Nat :=
  read clock (4 * i + 3) - read clock (4 * i + 2)

/-- True arithmetic sum of the first `n` enter samples. -/
def enterSampleSum (clock : Clock) (n : Nat) : Nat :=
  ((List.range n).map (enterSample clock)).sum

/-- True arithmetic sum of the first `n` exit samples. -/
def exitSampleSum (clock : Clock) (n : Nat) : Nat :=
  ((List.range n).map (exitSample clock)).sum

/-- Running 32-bit sample totals of the crit-speed loop starting at clock
read `base` (before the accumulator's modular reduction). -/
def critWordSums (clock : Clock) : Nat → Nat → Nat × Nat
  | _, 0 => (0, 0)
  | base, n + 1 =>
    (wordSub (read clock (base + 1)) (read clock base) +
       (critWordSums clock (base + 4) n).1,
     wordSub (read clock (base + 3)) (read clock (base + 2)) +
       (critWordSums clock (base + 4) n).2)

/-- True (unbounded) sample totals of the crit-speed loop starting at
clock read `base`. -/
def critTrueSums (clock : Clock) : Nat → Nat → Nat × Nat
  | _, 0 => (0, 0)
  | base, n + 1 =>
    ((read clock (base + 1) - read clock base) +
       (critTrueSums clock (base + 4) n).1,
     (read clock (base + 3) - read clock (base + 2)) +
       (critTrueSums clock (base + 4) n).2)

theorem critSpeedLoop_eq (clock : Clock) (n : Nat) :
    ∀ base e x, e < wordMod → x < wordMod →
      critSpeedLoop clock base e x n =
        ((e + (critWordSums clock base n).1) % wordMod,
         (x + (critWordSums clock base n).2) % wordMod) := by
  induction n with
  | zero =>
    intro base e x he hx
    simp [critSpeedLoop, critWordSums, Nat.mod_eq_of_lt he,
      Nat.mod_eq_of_lt hx]
  | succ n ih =>
    intro base e x he hx
    rw [critSpeedLoop, ih (base + 4) _ _ (wordAdd_lt _ _) (wordAdd_lt _ _)]
    simp only [critWordSums, wordAdd, Nat.mod_add_mod, Nat.add_assoc]

theorem critWordSums_eq_trueSums (clock : Clock) (n : Nat) :
    ∀ base,
      (∀ i, i < n →
        read clock (base + 4 * i) ≤ read clock (base + 4 * i + 1) ∧
        read clock (base + 4 * i + 2) ≤ read clock (base + 4 * i + 3)) →
      critWordSums clock base n = critTrueSums clock base n := by
  induction n with
  | zero => intro base _; rfl
  | succ n ih =>
    intro base h
    have h0 := h 0 (Nat.succ_pos n)
    simp only [Nat.mul_zero, Nat.add_zero] at h0
    have hrest := ih (base + 4) (fun i hi => by
      have := h (i + 1) (by omega)
      have e : base + 4 * (i + 1) = base + 4 + 4 * i := by omega
      rwa [e] at this)
    rw [critWordSums, critTrueSums, hrest,
      wordSub_of_le h0.1 (read_lt _ _), wordSub_of_le h0.2 (read_lt _ _)]

theorem critTrueSums_eq_sums (clock : Clock) (n : Nat) :
    ∀ k, critTrueSums clock (4 * k) n =
      (((List.range n).map (fun i => enterSample clock (k + i))).sum,
       ((List.range n).map (fun i => exitSample clock (k + i))).sum) := by
  induction n with
  | zero => intro k; simp [critTrueSums]
  | succ n ih =>
    intro k
    have e4 : 4 * k + 4 = 4 * (k + 1) := by omega
    rw [critTrueSums, e4, ih (k + 1), List.range_succ_eq_map]
    simp only [List.map_cons, List.sum_cons, List.map_map, Prod.mk.injEq]
    constructor
    · congr 1
      refine congrArg List.sum ?_
      refine List.map_congr_left (fun i _ => ?_)
      simp only [Function.comp_apply]
      have e : k + 1 + i = k + (i + 1) := by omega
      rw [e]
    · congr 1
      refine congrArg List.sum ?_
      refine List.map_congr_left (fun i _ => ?_)
      simp only [Function.comp_apply]
      have e : k + 1 + i = k + (i + 1) := by omega
      rw [e]

theorem critTrueSums_zero (clock : Clock) (n : Nat) :
    critTrueSums clock 0 n = (enterSampleSum clock n, exitSampleSum clock n) := by
  have h := critTrueSums_eq_sums clock n 0
  simp only [Nat.mul_zero] at h
  rw [h, enterSampleSum, exitSampleSum, Prod.mk.injEq]
  constructor
  · refine congrArg List.sum
      (List.map_congr_left (fun i _ => by rw [Nat.zero_add]))
  · refine congrArg List.sum
      (List.map_congr_left (fun i _ => by rw [Nat.zero_add]))

/-- C8: with 128 samples, the critical-section benchmark prints exactly
one average for entering and one for exiting a critical section, each the
truncating mean of the 128 individually timed calls of that primitive.
The hypotheses are the spec's no-wrap assumption for the clock and for
the two 32-bit accumulators. -/
theorem critSectionSpeed_report (clock : Clock)
    (hmono : ∀ i, i < portTEST_NUM_SAMPLES →
      read clock (4 * i) ≤ read clock (4 * i + 1) ∧
      read clock (4 * i + 2) ≤ read clock (4 * i + 3))
    (hfitE : enterSampleSum clock portTEST_NUM_SAMPLES < wordMod)
    (hfitX : exitSampleSum clock portTEST_NUM_SAMPLES < wordMod) :
    Test_CriticalSectionSpeed clock =
      [("taskENTER_CRITICAL()",
        enterSampleSum clock portTEST_NUM_SAMPLES / portTEST_NUM_SAMPLES),
       ("taskEXIT_CRITICAL()",
        exitSampleSum clock portTEST_NUM_SAMPLES / portTEST_NUM_SAMPLES)] ∧
    (Test_CriticalSectionSpeed clock).length = 2 ∧
    (Test_CriticalSectionSpeed clock).countP
      (fun p => p.1 == "taskENTER_CRITICAL()") = 1 ∧
    (Test_CriticalSectionSpeed clock).countP
      (fun p => p.1 == "taskEXIT_CRITICAL()") = 1 := by
  have hloop := critSpeedLoop_eq clock portTEST_NUM_SAMPLES 0 0 0
    wordMod_pos wordMod_pos
  have hw := critWordSums_eq_trueSums clock portTEST_NUM_SAMPLES 0
    (fun i hi => by simpa using hmono i hi)
  rw [hw, critTrueSums_zero] at hloop
  have hrep : Test_CriticalSectionSpeed clock =
      [("taskENTER_CRITICAL()",
        enterSampleSum clock portTEST_NUM_SAMPLES / portTEST_NUM_SAMPLES),
       ("taskEXIT_CRITICAL()",
        exitSampleSum clock portTEST_NUM_SAMPLES / portTEST_NUM_SAMPLES)] := by
    rw [Test_CriticalSectionSpeed, hloop]
    rw [Nat.zero_add, Nat.zero_add, Nat.mod_eq_of_lt hfitE,
      Nat.mod_eq_of_lt hfitX]
  refine ⟨hrep, ?_, ?_, ?_⟩ <;> rw [hrep] <;> rfl

set_option maxRecDepth 8000 in
/-- C8 witness: the identity clock satisfies the no-wrap hypotheses and
the benchmark reports the two averages. -/
theorem critSectionSpeed_report_witness :
    Test_CriticalSectionSpeed (fun k => k) =
      [("taskENTER_CRITICAL()",
        enterSampleSum (fun k => k) portTEST_NUM_SAMPLES /
          portTEST_NUM_SAMPLES),
       ("taskEXIT_CRITICAL()",
        exitSampleSum (fun k => k) portTEST_NUM_SAMPLES /
          portTEST_NUM_SAMPLES)] :=
  (critSectionSpeed_report (fun k => k) (by decide) (by decide)
    (by decide)).1

theorem wordSub_int (a b : Nat) (ha : a < wordMod) (hb : b < wordMod) :
    ((wordSub a b : Nat) : Int) = ((a : Int) - (b : Int)) % (wordMod : Int) := by
  have hbm : b % wordMod = b := Nat.mod_eq_of_lt hb
  rw [wordSub, hbm]
  have hble : b ≤ wordMod := le_of_lt hb
  push_cast [Nat.cast_sub hble]
  simp only [wordMod] at ha hb ⊢
  push_cast
  omega

theorem mod_div_lt_of_wordMod_le {sum n : Nat} (hn0 : 0 < n)
    (hnM : n ≤ wordMod) (h : wordMod ≤ sum) :
    sum % wordMod / n < sum / n := by
  have hq : 1 ≤ sum / wordMod := (Nat.one_le_div_iff wordMod_pos).mpr h
  have hmul : wordMod * 1 ≤ wordMod * (sum / wordMod) :=
    Nat.mul_le_mul_left wordMod hq
  have hdm := Nat.mod_add_div sum wordMod
  have h1 : sum % wordMod + wordMod ≤ sum := by omega
  have h2 : 1 ≤ wordMod / n := (Nat.one_le_div_iff hn0).mpr hnM
  calc sum % wordMod / n + 1
      ≤ sum % wordMod / n + wordMod / n := by omega
    _ ≤ (sum % wordMod + wordMod) / n := Nat.add_div_le_add_div _ _ _
    _ ≤ sum / n := Nat.div_le_div_right h1

/-- C9: every sample and cumulative sum of the benchmarks is computed in
32-bit modular arithmetic: a computed sample is
`(end - start) mod 2 ^ 32`, the producer's accumulator after `n` rounds
holds the sum of its true samples `mod 2 ^ 32` (likewise the two
crit-speed accumulators), and the reported average equals the true
arithmetic mean exactly when the true cumulative sum fits the 32-bit
word. -/
theorem accumulators_are_modular (clock : Clock) (n : Nat)
    (hn0 : 0 < n) (hnM : n ≤ wordMod)
    (hmono : ∀ r, r < n → read clock (2 * r) ≤ read clock (2 * r + 1))
    (hmono4 : ∀ i, i < n →
      read clock (4 * i) ≤ read clock (4 * i + 1) ∧
      read clock (4 * i + 2) ≤ read clock (4 * i + 3)) :
    (∀ a b : Nat, a < wordMod → b < wordMod →
      ((wordSub a b : Nat) : Int) =
        ((a : Int) - (b : Int)) % (wordMod : Int)) ∧
    (∃ tr, prvProducerRun clock portTEST_NUM_ITEMS
        (coreInitialState portTEST_NUM_ITEMS) n =
      Except.ok (⟨2 * n, ⟨portTEST_NUM_ITEMS, []⟩,
        sampleSum clock n % wordMod⟩, tr)) ∧
    critSpeedLoop clock 0 0 0 n =
      (enterSampleSum clock n % wordMod, exitSampleSum clock n % wordMod) ∧
    (sampleSum clock n % wordMod / n = sampleSum clock n / n ↔
      sampleSum clock n < wordMod) := by
  refine ⟨wordSub_int, ?_, ?_, ?_⟩
  · have hrun := prvProducerRun_ok clock portTEST_NUM_ITEMS n
      (coreInitialState portTEST_NUM_ITEMS) rfl (le_refl _) wordMod_pos
    simp only [coreInitialState, xQueueCreate, Nat.zero_add] at hrun
    have hc : wordSampleSum clock 0 n % wordMod =
        sampleSum clock n % wordMod := by
      have := run_cumulative_eq clock n hmono
      simpa using this
    rw [hc] at hrun
    exact ⟨_, hrun⟩
  · have hloop := critSpeedLoop_eq clock n 0 0 0 wordMod_pos wordMod_pos
    have hw := critWordSums_eq_trueSums clock n 0
      (fun i hi => by simpa using hmono4 i hi)
    rw [hw, critTrueSums_zero] at hloop
    rw [hloop, Nat.zero_add, Nat.zero_add]
  · constructor
    · intro heq
      by_contra hge
      have hlt := mod_div_lt_of_wordMod_le hn0 hnM (le_of_not_lt hge)
      omega
    · intro h
      rw [Nat.mod_eq_of_lt h]

/-- C9 witness: a one-round run on the identity clock. -/
theorem accumulators_are_modular_witness :
    critSpeedLoop (fun k => k) 0 0 0 1 =
      (enterSampleSum (fun k => k) 1 % wordMod,
       exitSampleSum (fun k => k) 1 % wordMod) :=
  (accumulators_are_modular (fun k => k) 1 (by decide) (by decide)
    (by decide) (by decide)).2.2.1

theorem filter_ne_length (self : Nat) :
    ∀ n, self < n →
      ((List.range n).filter (fun c => c != self)).length = n - 1 := by
  intro n
  induction n with
  | zero => intro h; cases h
  | succ n ih =>
    intro h
    rw [List.range_succ, List.filter_append]
    by_cases hs : self = n
    · subst hs
      have hall : (List.range self).filter (fun c => c != self) =
          List.range self :=
        List.filter_eq_self.mpr (fun a ha => by
          have := List.mem_range.mp ha
          simp [Nat.ne_of_lt this])
      rw [hall]
      simp
    · have hlt : self < n := by omega
      have hbne : (n != self) = true := by
        simp only [bne_iff_ne]
        exact Ne.symm hs
      rw [List.length_append, ih hlt]
      simp [hbne]
      omega

theorem releasePhase_length (numCores self : Nat) (h : self < numCores) :
    (releasePhase numCores self).length = numCores := by
  rw [releasePhase, List.length_append, List.length_map,
    filter_ne_length self numCores h]
  simp
  omega

theorem coordRound_length (numCores self : Nat) (h : self < numCores) :
    (coordRound numCores self).length = 2 * numCores := by
  rw [coordRound, List.length_append, releasePhase_length numCores self h,
    consumePhase, List.length_map, List.length_range]
  omega

theorem coordTrace_succ (numCores self iters : Nat) :
    coordTrace numCores self (iters + 1) =
      coordTrace numCores self iters ++
        (coordRound numCores self).map (fun e => (iters, e)) := by
  rw [coordTrace, coordTrace, List.range_succ, List.flatMap_append]
  simp

theorem coordTrace_length (numCores self : Nat) (h : self < numCores) :
    ∀ iters, (coordTrace numCores self iters).length =
      iters * (2 * numCores) := by
  intro iters
  induction iters with
  | zero => simp [coordTrace]
  | succ m ih =>
    rw [coordTrace_succ, List.length_append, ih, List.length_map,
      coordRound_length numCores self h]
    ring

theorem coordTrace_label (numCores self : Nat) (hself : self < numCores) :
    ∀ iters k (hk : k < (coordTrace numCores self iters).length),
      ((coordTrace numCores self iters).get ⟨k, hk⟩).1 =
        k / (2 * numCores) := by
  intro iters
  induction iters with
  | zero => intro k hk; simp [coordTrace] at hk
  | succ m ih =>
    intro k hk
    have e := coordTrace_succ numCores self m
    rw [List.get_of_eq e ⟨k, hk⟩]
    have hk2 : k < (coordTrace numCores self m ++
        (coordRound numCores self).map (fun x => (m, x))).length := by
      rw [← e]; exact hk
    have hlen := coordTrace_length numCores self hself m
    have hk3 : k < m * (2 * numCores) + 2 * numCores := by
      rw [List.length_append, hlen, List.length_map,
        coordRound_length numCores self hself] at hk2
      exact hk2
    simp only [List.get_eq_getElem]
    by_cases hkl : k < (coordTrace numCores self m).length
    · rw [List.getElem_append_left hkl]
      have := ih k hkl
      simpa using this
    · have hge : (coordTrace numCores self m).length ≤ k := le_of_not_lt hkl
      rw [List.getElem_append_right hge]
      rw [List.getElem_map]
      have hgem : m * (2 * numCores) ≤ k := by rw [← hlen]; exact hge
      have hdiv : k / (2 * numCores) = m := by
        refine Nat.div_eq_of_lt_le hgem ?_
        rw [Nat.succ_mul]
        omega
      rw [hdiv]

/-- Every event of the trace is labelled with a round below the iteration
count. -/
theorem coordTrace_labels_lt (numCores self iters : Nat) :
    ∀ x ∈ coordTrace numCores self iters, x.1 < iters := by
  intro x hx
  rw [coordTrace] at hx
  obtain ⟨r, hr, hx⟩ := List.mem_flatMap.mp hx
  obtain ⟨e, _, rfl⟩ := List.mem_map.mp hx
  exact List.mem_range.mp hr

theorem coordTrace_filter_round (numCores self : Nat) :
    ∀ iters r, r < iters →
      (coordTrace numCores self iters).filter (fun x => x.1 == r) =
        (coordRound numCores self).map (fun e => (r, e)) := by
  intro iters
  induction iters with
  | zero => intro r hr; cases hr
  | succ m ih =>
    intro r hr
    rw [coordTrace_succ, List.filter_append]
    by_cases hrm : r = m
    · subst hrm
      have h1 : (coordTrace numCores self r).filter (fun x => x.1 == r) =
          [] := by
        rw [List.filter_eq_nil_iff]
        intro x hx
        have := coordTrace_labels_lt numCores self r x hx
        simp
        omega
      have h2 : ((coordRound numCores self).map
            (fun e => (r, e))).filter (fun x => x.1 == r) =
          (coordRound numCores self).map (fun e => (r, e)) :=
        List.filter_eq_self.mpr (fun x hx => by
          obtain ⟨e, _, rfl⟩ := List.mem_map.mp hx
          simp)
      rw [h1, h2, List.nil_append]
    · have hlt : r < m := by omega
      have h2 : ((coordRound numCores self).map
            (fun e => (m, e))).filter (fun x => x.1 == r) = [] := by
        rw [List.filter_eq_nil_iff]
        intro x hx
        obtain ⟨e, _, rfl⟩ := List.mem_map.mp hx
        simp
        omega
      rw [ih r hlt, h2, List.append_nil]

theorem coordRound_countP_release (numCores self : Nat)
    (h : self < numCores) :
    (coordRound numCores self).countP isRelease = numCores := by
  rw [coordRound, List.countP_append]
  have h1 : (releasePhase numCores self).countP isRelease =
      (releasePhase numCores self).length :=
    List.countP_eq_length.mpr (fun a ha => by
      rcases List.mem_append.mp ha with hm | hm
      · obtain ⟨c, _, rfl⟩ := List.mem_map.mp hm; rfl
      · simp only [List.mem_singleton] at hm; subst hm; rfl)
  have h2 : (consumePhase numCores).countP isRelease = 0 :=
    List.countP_eq_zero.mpr (fun a ha => by
      obtain ⟨c, _, rfl⟩ := List.mem_map.mp ha
      simp [isRelease])
  rw [h1, h2, releasePhase_length numCores self h]
  omega

theorem coordRound_countP_consume (numCores self : Nat)
    (h : self < numCores) :
    (coordRound numCores self).countP isConsume = numCores := by
  rw [coordRound, List.countP_append]
  have h1 : (releasePhase numCores self).countP isConsume = 0 :=
    List.countP_eq_zero.mpr (fun a ha => by
      rcases List.mem_append.mp ha with hm | hm
      · obtain ⟨c, _, rfl⟩ := List.mem_map.mp hm; simp [isConsume]
      · simp only [List.mem_singleton] at hm; subst hm; simp [isConsume])
  have h2 : (consumePhase numCores).countP isConsume =
      (consumePhase numCores).length :=
    List.countP_eq_length.mpr (fun a ha => by
      obtain ⟨c, _, rfl⟩ := List.mem_map.mp ha; rfl)
  rw [h1, h2, consumePhase, List.length_map, List.length_range]
  omega

/-- C2: in every round the Coordinator issues exactly `numCores` release
signals and consumes exactly `numCores` completion signals, and no
release labelled round `i + 1` occurs in the trace before any completion
consumption labelled round `i`: rounds are strictly serialized. -/
theorem coordinator_barrier (numCores self iters : Nat)
    (hself : self < numCores) :
    (∀ r, r < iters →
      ((coordTrace numCores self iters).filter
        (fun x => x.1 == r)).countP (fun x => isRelease x.2) = numCores ∧
      ((coordTrace numCores self iters).filter
        (fun x => x.1 == r)).countP (fun x => isConsume x.2) = numCores) ∧
    (∀ i p q (hp : p < (coordTrace numCores self iters).length)
        (hq : q < (coordTrace numCores self iters).length),
      ((coordTrace numCores self iters).get ⟨p, hp⟩).1 = i →
      isConsume ((coordTrace numCores self iters).get ⟨p, hp⟩).2 = true →
      ((coordTrace numCores self iters).get ⟨q, hq⟩).1 = i + 1 →
      isRelease ((coordTrace numCores self iters).get ⟨q, hq⟩).2 = true →
      p < q) := by
  constructor
  · intro r hr
    rw [coordTrace_filter_round numCores self iters r hr, List.countP_map,
      List.countP_map]
    exact ⟨coordRound_countP_release numCores self hself,
      coordRound_countP_consume numCores self hself⟩
  · intro i p q hp hq hpi _ hqi _
    rw [coordTrace_label numCores self hself iters p hp] at hpi
    rw [coordTrace_label numCores self hself iters q hq] at hqi
    by_contra hle
    have hqp : q ≤ p := le_of_not_lt hle
    have hdle : q / (2 * numCores) ≤ p / (2 * numCores) :=
      Nat.div_le_div_right hqp
    omega

/-- C2 witness: two cores, coordinator on core 0, two rounds. -/
theorem coordinator_barrier_witness :
    ((coordTrace 2 0 2).filter (fun x => x.1 == 0)).countP
      (fun x => isRelease x.2) = 2 :=
  ((coordinator_barrier 2 0 2 (by decide)).1 0 (by decide)).1

/-- C3: in every round's release sequence, every worker whose core
differs from the coordinator's own core is released before the worker on
the coordinator's core, which is released last. -/
theorem coordinator_release_order (numCores self : Nat)
    (hself : self < numCores) :
    ∃ pre : List Nat,
      releasePhase numCores self =
        pre.map CEvent.release ++ [CEvent.release self] ∧
      pre.length = numCores - 1 ∧
      (∀ c ∈ pre, c ≠ self) ∧
      (∀ c, c < numCores → c ≠ self → c ∈ pre) ∧
      (releasePhase numCores self).getLast? =
        some (CEvent.release self) := by
  refine ⟨(List.range numCores).filter (fun c => c != self), rfl,
    filter_ne_length self numCores hself, ?_, ?_, ?_⟩
  · intro c hc
    have := (List.mem_filter.mp hc).2
    simpa using this
  · intro c hc hne
    exact List.mem_filter.mpr ⟨List.mem_range.mpr hc, by simpa using hne⟩
  · exact List.getLast?_concat _

/-- C3 witness: two cores with the coordinator on core 1. -/
theorem coordinator_release_order_witness :
    ∃ pre : List Nat,
      releasePhase 2 1 = pre.map CEvent.release ++ [CEvent.release 1] ∧
      pre.length = 2 - 1 ∧
      (∀ c ∈ pre, c ≠ 1) ∧
      (∀ c, c < 2 → c ≠ 1 → c ∈ pre) ∧
      (releasePhase 2 1).getLast? = some (CEvent.release 1) :=
  coordinator_release_order 2 1 (by decide)

theorem sendItems_fails (count : Nat) :
    ∀ (q : Queue) (iItems : Nat), q.items.length ≤ q.capacity →
      q.capacity < q.items.length + count →
      sendItems q iItems count = Except.error "xQueueSend() failed" := by
  induction count with
  | zero => intro q i h1 h2; omega
  | succ n ih =>
    intro q i h1 h2
    rw [sendItems]
    by_cases hlt : q.items.length < q.capacity
    · simp only [xQueueSend, if_pos hlt]
      rw [ih ⟨q.capacity, q.items ++ [Int.ofNat i]⟩ (i + 1) (by simp; omega)
        (by simp; omega)]
      simp
    · simp [xQueueSend, if_neg hlt]

theorem prvProducerRun_fails (clock : Clock) (numItems numSamples : Nat)
    (s : ProducerState) (hwf : s.queue.items.length ≤ s.queue.capacity)
    (hover : s.queue.capacity < s.queue.items.length + numItems)
    (hs : 0 < numSamples) :
    prvProducerRun clock numItems s numSamples =
      Except.error "xQueueSend() failed" := by
  obtain ⟨m, rfl⟩ : ∃ m, numSamples = m + 1 := ⟨numSamples - 1, by omega⟩
  rw [prvProducerRun, prvProducerRound,
    sendItems_fails numItems s.queue 0 hwf hover]

set_option maxRecDepth 8000 in
/-- C7 counterexample: two runs whose first round hits a full private
queue in different states (full from the start; one leftover item) abort
with the same fixed report, and that report contains no digit, so it
names neither the core index nor the iteration number. -/
theorem operation_failure_report_lacks_context :
    prvProducerRun (fun k => k) portTEST_NUM_ITEMS
        ⟨0, ⟨portTEST_NUM_ITEMS, List.replicate portTEST_NUM_ITEMS 0⟩, 0⟩
        portTEST_NUM_SAMPLES = Except.error "xQueueSend() failed" ∧
    prvProducerRun (fun k => k) portTEST_NUM_ITEMS
        ⟨0, ⟨portTEST_NUM_ITEMS, [0]⟩, 0⟩
        portTEST_NUM_SAMPLES = Except.error "xQueueSend() failed" ∧
    "xQueueSend() failed".toList.any Char.isDigit = false := by
  refine ⟨?_, ?_, by decide⟩
  · exact prvProducerRun_fails (fun k => k) portTEST_NUM_ITEMS
      portTEST_NUM_SAMPLES _ (by decide) (by decide) (by decide)
  · exact prvProducerRun_fails (fun k => k) portTEST_NUM_ITEMS
      portTEST_NUM_SAMPLES _ (by decide) (by decide) (by decide)

/-- C7 amended: if a non-blocking enqueue fails during a round, the run
aborts immediately with the fixed assertion message
"xQueueSend() failed" and no averages are reported; the report does not
identify the core index or the iteration number (it contains no
digits). -/
theorem operation_failure_aborts (clocks : Nat → Clock)
    (capacity numItems numSamples numCores : Nat)
    (hlt : capacity < numItems) (hc : 0 < numCores) (hs : 0 < numSamples) :
    Test_QueueContention clocks capacity numItems numSamples numCores =
      Except.error "xQueueSend() failed" ∧
    "xQueueSend() failed".toList.any Char.isDigit = false := by
  refine ⟨?_, by decide⟩
  obtain ⟨c, rfl⟩ : ∃ c, numCores = c + 1 := ⟨numCores - 1, by omega⟩
  rw [Test_QueueContention, List.range_succ_eq_map, reportCores,
    prvProducerRun_fails (clocks 0) numItems numSamples
      (coreInitialState capacity) (by simp [coreInitialState, xQueueCreate])
      (by simp [coreInitialState, xQueueCreate]; omega) hs]

/-- C7 amended witness: a queue of capacity 0 makes the first enqueue of
the first round fail. -/
theorem operation_failure_aborts_witness :
    Test_QueueContention (fun _ k => k) 0 portTEST_NUM_ITEMS
        portTEST_NUM_SAMPLES configNUMBER_OF_CORES =
      Except.error "xQueueSend() failed" :=
  (operation_failure_aborts (fun _ k => k) 0 portTEST_NUM_ITEMS
    portTEST_NUM_SAMPLES configNUMBER_OF_CORES (by decide) (by decide)
    (by decide)).1

theorem queueSpeedSendLoop_ok (clock : Clock) (n : Nat) :
    ∀ (readIdx : Nat) (q : Queue) (cum i : Nat),
      q.items.length + n ≤ q.capacity →
      ∃ cum2, queueSpeedSendLoop clock readIdx q cum i n =
        Except.ok (readIdx + 2 * n,
          ⟨q.capacity, q.items ++ sentVals i n⟩, cum2) := by
  induction n with
  | zero =>
    intro readIdx q cum i _
    exact ⟨cum, by simp [queueSpeedSendLoop, sentVals]⟩
  | succ n ih =>
    intro readIdx q cum i h
    have hlt : q.items.length < q.capacity := by omega
    rw [queueSpeedSendLoop]
    simp only [xQueueSend, if_pos hlt]
    obtain ⟨cum2, hrec⟩ := ih (readIdx + 2)
      ⟨q.capacity, q.items ++ [Int.ofNat i]⟩
      (wordAdd cum (wordSub (read clock (readIdx + 1)) (read clock readIdx)))
      (i + 1) (by simp; omega)
    refine ⟨cum2, ?_⟩
    rw [hrec]
    have e : readIdx + 2 + 2 * n = readIdx + 2 * (n + 1) := by omega
    simp [sentVals, e]

theorem queueSpeedRecvLoop_ok (clock : Clock) (n : Nat) :
    ∀ (readIdx : Nat) (q : Queue) (cum : Nat) (vals : List Int),
      n ≤ q.items.length →
      ∃ cum2, queueSpeedRecvLoop clock readIdx q cum vals n =
        Except.ok (readIdx + 2 * n, ⟨q.capacity, q.items.drop n⟩, cum2,
          vals ++ q.items.take n) := by
  induction n with
  | zero =>
    intro readIdx q cum vals _
    exact ⟨cum, by simp [queueSpeedRecvLoop]⟩
  | succ n ih =>
    intro readIdx q cum vals h
    obtain ⟨cap, items⟩ := q
    cases items with
    | nil => simp at h
    | cons v rest =>
      simp only [List.length_cons] at h
      rw [queueSpeedRecvLoop]
      simp only [xQueueReceive]
      obtain ⟨cum2, hrec⟩ := ih (readIdx + 2) ⟨cap, rest⟩
        (wordAdd cum (wordSub (read clock (readIdx + 1)) (read clock readIdx)))
        (vals ++ [v]) (by simpa using Nat.le_of_succ_le_succ h)
      refine ⟨cum2, ?_⟩
      rw [hrec]
      have e : readIdx + 2 + 2 * n = readIdx + 2 * (n + 1) := by omega
      simp [e, List.append_assoc]

theorem sentVals_zero_eq (n : Nat) :
    sentVals 0 n = (List.range n).map Int.ofNat := by
  rw [sentVals_eq_range]
  exact List.map_congr_left (fun j _ => by rw [Nat.zero_add])

set_option maxRecDepth 8000 in
/-- C10: the non-blocking queue-speed test creates a queue whose
capacity is the sample count, all 128 sends succeed, all 128 receives
succeed, the received values are exactly the sent values 0..127 in FIFO
order, and the queue is empty again when the test ends. -/
theorem queueSpeed_fifo (clock : Clock) :
    ∃ sendCum recvCum,
      Test_QueueSpeedNonBlocking clock =
        Except.ok
          ([("xQueueSend()", sendCum / portTEST_NUM_SAMPLES),
            ("xQueueReceive()", recvCum / portTEST_NUM_SAMPLES)],
           ⟨portTEST_NUM_SAMPLES, []⟩,
           (List.range portTEST_NUM_SAMPLES).map Int.ofNat) := by
  obtain ⟨c1, hsend⟩ := queueSpeedSendLoop_ok clock portTEST_NUM_SAMPLES 0
    (xQueueCreate portTEST_NUM_SAMPLES) 0 0 (by simp [xQueueCreate])
  obtain ⟨c2, hrecv⟩ := queueSpeedRecvLoop_ok clock portTEST_NUM_SAMPLES
    (0 + 2 * portTEST_NUM_SAMPLES)
    ⟨(xQueueCreate portTEST_NUM_SAMPLES).capacity,
      (xQueueCreate portTEST_NUM_SAMPLES).items ++
        sentVals 0 portTEST_NUM_SAMPLES⟩ 0 []
    (by simp [xQueueCreate, sentVals_length])
  refine ⟨c1, c2, ?_⟩
  simp only [Test_QueueSpeedNonBlocking]
  rw [hsend]
  dsimp only
  rw [hrecv]
  dsimp only
  have hlen : (sentVals 0 portTEST_NUM_SAMPLES).length =
      portTEST_NUM_SAMPLES := sentVals_length _ _
  have hdrop : (sentVals 0 portTEST_NUM_SAMPLES).drop portTEST_NUM_SAMPLES =
      [] := by
    have h := List.drop_length (sentVals 0 portTEST_NUM_SAMPLES)
    rwa [hlen] at h
  have htake : (sentVals 0 portTEST_NUM_SAMPLES).take portTEST_NUM_SAMPLES =
      sentVals 0 portTEST_NUM_SAMPLES := by
    have h := List.take_length (sentVals 0 portTEST_NUM_SAMPLES)
    rwa [hlen] at h
  simp [xQueueCreate, hdrop, htake, sentVals_zero_eq]
